import Mathlib

/-!
Shallow embedding of the financial-engineering repository
(`src/analysis/returns.py`, `src/data/fetcher.py`).

A pandas price series is modelled as a list over a linear ordered field
`K`; the theorems instantiate `K := ℝ`.  A series that may hold undefined
(NaN) cells, such as the output of `pct_change`, is modelled as
`List (Option K)` with `none` for NaN.  The transcendental operations the
source uses (`np.log`, `np.sqrt`, float `**`) are passed as explicit
function parameters so that the definitions stay computable; the theorems
supply `Real.log`, `Real.sqrt` and real exponentiation.  Fallible
functions return `Except String`.
-/

namespace FinEng

variable {K : Type} [LinearOrderedField K]

/-- Embeds `Series.pct_change` on the tail of a series: for each element `x` of
the list with predecessor `prev`, the cell `(x - prev) / prev`.  All cells
of the tail are defined. -/
def pct_change_aux (prev : K) : List K → List (Option K)
  | [] => []
  | x :: xs => some ((x - prev) / prev) :: pct_change_aux x xs

/-- Embeds `prices.pct_change()`: same length as the input, first cell NaN. -/
def pct_change : List K → List (Option K)
  | [] => []
  | p :: ps => none :: pct_change_aux p ps

/-- Embeds `np.log(prices / prices.shift(1))` on the tail of the series. -/
def log_change_aux (log : K → K) (prev : K) : List K → List (Option K)
  | [] => []
  | x :: xs => some (log (x / prev)) :: log_change_aux log x xs

/-- Embeds `np.log(prices / prices.shift(1))`: same length, first cell NaN. -/
def log_change (log : K → K) : List K → List (Option K)
  | [] => []
  | p :: ps => none :: log_change_aux log p ps

/-- Embeds `calculate_returns(prices, method)` from `src/analysis/returns.py`. -/
def calculate_returns (log : K → K) (prices : List K) (method : String) :
    Except String (List (Option K)) :=
  if method = "simple" then
    Except.ok (pct_change prices)
  else if method = "log" then
    Except.ok (log_change log prices)
  else
    Except.error ("Unknown method: " ++ method)

/-- Running product, as `Series.cumprod()` does on the tail given the
product `acc` accumulated so far. -/
def cumprodAux (acc : K) : List K → List K
  | [] => []
  | x :: xs => (acc * x) :: cumprodAux (acc * x) xs

/-- Embeds `series.cumprod()`: element `i` is the product of elements `0..i`. -/
def cumprod (xs : List K) : List K := cumprodAux 1 xs

/-- Embeds `calculate_cumulative_returns(returns) = (1 + returns).cumprod() - 1`. -/
def calculate_cumulative_returns (returns : List K) : List K :=
  (cumprod (returns.map (fun r => 1 + r))).map (fun x => x - 1)

/-- Embeds `calculate_annualized_return(returns, periods_per_year)`:
`total_return = (1 + returns).prod() - 1`; `years = n / periods_per_year`;
result `(1 + total_return) ** (1 / years) - 1`.  `rpow` is float `**`. -/
def calculate_annualized_return (rpow : K → K → K) (returns : List K)
    (periods_per_year : ℕ) : K :=
  let total_return : K := ((returns.map (fun r => 1 + r)).prod) - 1
  let n_periods : ℕ := returns.length
  let years : K := (n_periods : K) / (periods_per_year : K)
  rpow (1 + total_return) (1 / years) - 1

/-- Embeds `Series.std()`: sample standard deviation with `ddof = 1`. -/
def series_std (sqrt : K → K) (xs : List K) : K :=
  let n : ℕ := xs.length
  let mean : K := xs.sum / (n : K)
  sqrt ((xs.map (fun x => (x - mean) ^ 2)).sum / ((n : K) - 1))

/-- Embeds `calculate_volatility(returns, periods_per_year) =
returns.std() * sqrt(periods_per_year)`. -/
def calculate_volatility (sqrt : K → K) (returns : List K)
    (periods_per_year : ℕ) : K :=
  series_std sqrt returns * sqrt (periods_per_year : K)

/-- Embeds `calculate_sharpe_ratio(returns, risk_free_rate, periods_per_year) =
(ann_return - risk_free_rate) / ann_vol`. -/
def calculate_sharpe_ratio (rpow : K → K → K) (sqrt : K → K)
    (returns : List K) (risk_free_rate : K) (periods_per_year : ℕ) : K :=
  let ann_return := calculate_annualized_return rpow returns periods_per_year
  let ann_vol := calculate_volatility sqrt returns periods_per_year
  (ann_return - risk_free_rate) / ann_vol

/-- Embeds `prices.cummax()` on the tail of the series, `m` the running maximum
so far. -/
def cummaxAux (m : K) : List K → List K
  | [] => []
  | x :: xs => max m x :: cummaxAux (max m x) xs

/-- Embeds `prices.cummax()`. -/
def cummax : List K → List K
  | [] => []
  | p :: ps => p :: cummaxAux p ps

/-- Embeds `series.min()`, over the values of a nonempty list (the claims only
use it on nonempty series). -/
def series_min (xs : List K) : K := (xs.min?).getD 0

/-- Embeds `calculate_max_drawdown(prices)`: `cummax`, then
`(prices - cummax) / cummax`, then `.min()`. -/
def calculate_max_drawdown (prices : List K) : K :=
  let cm := cummax prices
  let drawdown := (prices.zip cm).map (fun pm => (pm.1 - pm.2) / pm.2)
  series_min drawdown

/-- The running maximum `M[t] = max(P[0..t])` as the spec words it. -/
def runningMax (P : List K) (t : ℕ) : K := ((P.take (t + 1)).max?).getD 0

/-- Max drawdown following the spec's words: the minimum over `t` of
`(P[t] - M[t]) / M[t]` with `M` the running maximum.  Stated for
comparison against `calculate_max_drawdown` from the source. -/
def specMaxDrawdown (P : List K) : K :=
  (((List.range P.length).map
    (fun t => (P.getD t 0 - runningMax P t) / runningMax P t)).min?).getD 0

/-- Python `str.isdigit`: true iff the string is nonempty and every
character is a digit. -/
def pyIsDigit (s : String) : Bool :=
  !s.data.isEmpty && s.data.all Char.isDigit

/-- Python truthiness of an optional string: `None` and `""` are falsy. -/
def truthy : Option String → Bool
  | none => false
  | some s => !s.data.isEmpty

/-- The call `get_stock_data` forwards to `yf.download`. -/
inductive YFCall where
  | byRange (tickers : String) (first last : String)
  | byPeriod (tickers : String) (period : String)

/-- Embeds `get_stock_data(tickers, start, end, period)` from
`src/data/fetcher.py`, modelled by the download request it sends: an
explicit date range if both `start` and `end` are truthy, otherwise the
trailing period. -/
def get_stock_data (tickers : String) (start stop : Option String)
    (period : String) : YFCall :=
  if truthy start && truthy stop then
    YFCall.byRange tickers (start.getD "") (stop.getD "")
  else
    YFCall.byPeriod tickers period

/-- Embeds `get_korean_stock_data(ticker, start, end, period)`: a purely numeric
ticker gets the ".KS" suffix before delegating to `get_stock_data`. -/
def get_korean_stock_data (ticker : String) (start stop : Option String)
    (period : String) : YFCall :=
  let t := if pyIsDigit ticker then ticker ++ ".KS" else ticker
  get_stock_data t start stop period

end FinEng

namespace FinEng

variable {K : Type} [LinearOrderedField K]

/- basic lemmas about the embedding -/

theorem pct_change_aux_length (a : K) (xs : List K) :
    (pct_change_aux a xs).length = xs.length := by
  induction xs generalizing a with
  | nil => rfl
  | cons x xs ih => simp [pct_change_aux, ih]

theorem log_change_aux_length (log : K → K) (a : K) (xs : List K) :
    (log_change_aux log a xs).length = xs.length := by
  induction xs generalizing a with
  | nil => rfl
  | cons x xs ih => simp [log_change_aux, ih]

theorem pct_change_aux_reduceOption (a : K) (xs : List K) :
    (pct_change_aux a xs).reduceOption.length = xs.length := by
  induction xs generalizing a with
  | nil => rfl
  | cons x xs ih => simp [pct_change_aux, List.reduceOption_cons_of_some, ih]

theorem log_change_aux_reduceOption (log : K → K) (a : K) (xs : List K) :
    (log_change_aux log a xs).reduceOption.length = xs.length := by
  induction xs generalizing a with
  | nil => rfl
  | cons x xs ih => simp [log_change_aux, List.reduceOption_cons_of_some, ih]

theorem pct_change_aux_getD (xs : List K) (a : K) (i : ℕ) (h : i < xs.length) :
    (pct_change_aux a xs).getD i none =
      some (((a :: xs).getD (i + 1) 0 - (a :: xs).getD i 0) /
        (a :: xs).getD i 0) := by
  induction xs generalizing a i with
  | nil => simp at h
  | cons x xs ih =>
    cases i with
    | zero => simp [pct_change_aux]
    | succ j =>
      have hj : j < xs.length := by simpa using h
      simpa [pct_change_aux, List.getD_cons_succ] using ih x j hj

theorem log_change_aux_getD (log : K → K) (xs : List K) (a : K) (i : ℕ)
    (h : i < xs.length) :
    (log_change_aux log a xs).getD i none =
      some (log ((a :: xs).getD (i + 1) 0 / (a :: xs).getD i 0)) := by
  induction xs generalizing a i with
  | nil => simp at h
  | cons x xs ih =>
    cases i with
    | zero => simp [log_change_aux]
    | succ j =>
      have hj : j < xs.length := by simpa using h
      simpa [log_change_aux, List.getD_cons_succ] using ih x j hj

/-- C1 (amended): for both methods the return series has the SAME length
as the price series; the first, undefined period is retained as a NaN
placeholder cell (`none`), and dropping the undefined cells leaves
`P.length - 1` defined return values. -/
theorem returns_length_spec (P : List ℝ) (method : String)
    (rs : List (Option ℝ)) (hm : method = "simple" ∨ method = "log")
    (h : calculate_returns Real.log P method = Except.ok rs) :
    rs.length = P.length ∧ rs.reduceOption.length = P.length - 1 ∧
      (P ≠ [] → rs[0]? = some none) := by
  have hrs : rs = pct_change P ∨ rs = log_change Real.log P := by
    rcases hm with hm | hm <;> subst hm <;>
      simp [calculate_returns] at h <;> simp [h]
  rcases hrs with hrs | hrs <;> subst hrs <;>
    cases P with
    | nil => simp [pct_change, log_change]
    | cons p ps =>
      refine ⟨?_, ?_, fun _ => by simp [pct_change, log_change]⟩
      · simp [pct_change, log_change, pct_change_aux_length,
          log_change_aux_length]
      · simp [pct_change, log_change, List.reduceOption_cons_of_none,
          pct_change_aux_reduceOption, log_change_aux_reduceOption]

/-- C1 witness: the amended statement at `P = [1, 2]`, method "simple". -/
theorem returns_length_spec_witness :
    [none, some (((2:ℝ) - 1) / 1)].length = [(1:ℝ), 2].length ∧
      [none, some (((2:ℝ) - 1) / 1)].reduceOption.length =
        [(1:ℝ), 2].length - 1 ∧
      ([(1:ℝ), 2] ≠ [] → [none, some (((2:ℝ) - 1) / 1)][0]? = some none) :=
  returns_length_spec [(1:ℝ), 2] "simple" [none, some (((2:ℝ) - 1) / 1)]
    (Or.inl rfl) rfl

/-- C1 counterexample: at `P = [1, 2]` with method "simple" the code
returns a series of length 2 = `P.length`, not `P.length - 1 = 1`, and the
first, undefined period is retained as a placeholder cell, not dropped. -/
theorem returns_length_counterexample :
    (calculate_returns Real.log [(1:ℝ), 2] "simple").map List.length =
        Except.ok [(1:ℝ), 2].length ∧
      [(1:ℝ), 2].length ≠ [(1:ℝ), 2].length - 1 ∧
      (calculate_returns Real.log [(1:ℝ), 2] "simple").map
          (fun rs => rs[0]?) = Except.ok (some none) :=
  ⟨rfl, by decide, rfl⟩

/-- C2: for a price series with no zero or negative values, the "simple"
method yields at each position `i > 0` the value
`(P[i] - P[i-1]) / P[i-1]`. -/
theorem calculate_returns_simple_spec (P : List ℝ) (i : ℕ) (h0 : 0 < i)
    (hi : i < P.length) (hpos : ∀ x ∈ P, 0 < x) :
    calculate_returns Real.log P "simple" = Except.ok (pct_change P) ∧
      (pct_change P).getD i none =
        some ((P.getD i 0 - P.getD (i - 1) 0) / P.getD (i - 1) 0) := by
  refine ⟨rfl, ?_⟩
  obtain ⟨p, ps, rfl⟩ : ∃ p ps, P = p :: ps := by
    cases P with
    | nil => simp at hi
    | cons p ps => exact ⟨p, ps, rfl⟩
  obtain ⟨j, rfl⟩ : ∃ j, i = j + 1 :=
    ⟨i - 1, (Nat.succ_pred_eq_of_pos h0).symm⟩
  have hj : j < ps.length := by simpa using hi
  simpa [pct_change, List.getD_cons_succ] using pct_change_aux_getD ps p j hj

/-- C2 witness: `P = [1, 2]`, `i = 1`. -/
theorem calculate_returns_simple_spec_witness :
    calculate_returns Real.log [(1:ℝ), 2] "simple" =
        Except.ok (pct_change [(1:ℝ), 2]) ∧
      (pct_change [(1:ℝ), 2]).getD 1 none =
        some ((([(1:ℝ), 2].getD 1 0) - [(1:ℝ), 2].getD 0 0) /
          [(1:ℝ), 2].getD 0 0) :=
  calculate_returns_simple_spec [(1:ℝ), 2] 1 (by decide) (by decide)
    (by intro x hx; simp at hx; rcases hx with rfl | rfl <;> norm_num)

/-- C3: for a strictly positive price series, the "log" method yields at
each position `i > 0` the value `ln(P[i] / P[i-1])`. -/
theorem calculate_returns_log_spec (P : List ℝ) (i : ℕ) (h0 : 0 < i)
    (hi : i < P.length) (hpos : ∀ x ∈ P, 0 < x) :
    calculate_returns Real.log P "log" = Except.ok (log_change Real.log P) ∧
      (log_change Real.log P).getD i none =
        some (Real.log (P.getD i 0 / P.getD (i - 1) 0)) := by
  refine ⟨rfl, ?_⟩
  obtain ⟨p, ps, rfl⟩ : ∃ p ps, P = p :: ps := by
    cases P with
    | nil => simp at hi
    | cons p ps => exact ⟨p, ps, rfl⟩
  obtain ⟨j, rfl⟩ : ∃ j, i = j + 1 :=
    ⟨i - 1, (Nat.succ_pred_eq_of_pos h0).symm⟩
  have hj : j < ps.length := by simpa using hi
  simpa [log_change, List.getD_cons_succ] using
    log_change_aux_getD Real.log ps p j hj

/-- C3 witness: `P = [1, 2]`, `i = 1`. -/
theorem calculate_returns_log_spec_witness :
    calculate_returns Real.log [(1:ℝ), 2] "log" =
        Except.ok (log_change Real.log [(1:ℝ), 2]) ∧
      (log_change Real.log [(1:ℝ), 2]).getD 1 none =
        some (Real.log ([(1:ℝ), 2].getD 1 0 / [(1:ℝ), 2].getD 0 0)) :=
  calculate_returns_log_spec [(1:ℝ), 2] 1 (by decide) (by decide)
    (by intro x hx; simp at hx; rcases hx with rfl | rfl <;> norm_num)

/-- C4: any method other than "simple" and "log" fails with an
invalid-argument error naming the offending method, and no result series
is produced. -/
theorem calculate_returns_invalid_method (P : List ℝ) (method : String)
    (h1 : method ≠ "simple") (h2 : method ≠ "log") :
    calculate_returns Real.log P method =
      Except.error ("Unknown method: " ++ method) := by
  simp [calculate_returns, h1, h2]

/-- C4 witness: method "bogus". -/
theorem calculate_returns_invalid_method_witness :
    calculate_returns Real.log [(1:ℝ)] "bogus" =
      Except.error ("Unknown method: " ++ "bogus") :=
  calculate_returns_invalid_method [(1:ℝ)] "bogus" (by decide) (by decide)

theorem cumprodAux_length (xs : List K) (acc : K) :
    (cumprodAux acc xs).length = xs.length := by
  induction xs generalizing acc with
  | nil => rfl
  | cons x xs ih => simp [cumprodAux, ih]

theorem cumprodAux_getD (xs : List K) (acc : K) (i : ℕ) (h : i < xs.length) :
    (cumprodAux acc xs).getD i 0 = acc * (xs.take (i + 1)).prod := by
  induction xs generalizing acc i with
  | nil => simp at h
  | cons x xs ih =>
    cases i with
    | zero => simp [cumprodAux]
    | succ j =>
      have hj : j < xs.length := by simpa using h
      rw [cumprodAux, List.getD_cons_succ, ih (acc * x) j hj,
        List.take_succ_cons, List.prod_cons, mul_assoc]

theorem getD_map_of_lt (f : K → K) (l : List K) (i : ℕ) (h : i < l.length) :
    (l.map f).getD i 0 = f (l.getD i 0) := by
  induction l generalizing i with
  | nil => simp at h
  | cons x xs ih =>
    cases i with
    | zero => simp
    | succ j =>
      have hj : j < xs.length := by simpa using h
      simpa [List.getD_cons_succ] using ih j hj

/-- C5: cumulative returns compound as `∏ (1 + r[j]) - 1` over the prefix
ending at each index; in particular
`calculate_cumulative_returns [0.1, -0.1] = [0.1, -0.01]`. -/
theorem calculate_cumulative_returns_spec (r : List ℝ) (i : ℕ)
    (hi : i < r.length) :
    (calculate_cumulative_returns r).getD i 0 =
        ((r.take (i + 1)).map (fun x => 1 + x)).prod - 1 ∧
      calculate_cumulative_returns [(0.1 : ℝ), -0.1] = [0.1, -0.01] := by
  constructor
  · have h1 : i < (cumprod (r.map fun x => 1 + x)).length := by
      simpa [cumprod, cumprodAux_length] using hi
    have h2 : i < (r.map fun x => 1 + x).length := by simpa using hi
    rw [calculate_cumulative_returns,
      getD_map_of_lt (fun x => x - 1) _ i h1, cumprod,
      cumprodAux_getD _ 1 i h2, one_mul, List.map_take]
  · show ((cumprodAux 1 _).map _) = _
    norm_num [cumprodAux]

/-- C5 witness: `r = [0.1, -0.1]`, `i = 0`. -/
theorem calculate_cumulative_returns_spec_witness :
    ((calculate_cumulative_returns [(0.1 : ℝ), -0.1]).getD 0 0 =
        (([(0.1 : ℝ), -0.1].take 1).map (fun x => 1 + x)).prod - 1) ∧
      calculate_cumulative_returns [(0.1 : ℝ), -0.1] = [0.1, -0.01] :=
  calculate_cumulative_returns_spec [(0.1 : ℝ), -0.1] 0 (by decide)

/-- C6: the annualized return is the total compounded return
`T = ∏ (1 + r[i]) - 1` raised to `periods_per_year / n`, minus 1. -/
theorem calculate_annualized_return_spec (r : List ℝ) (p : ℕ)
    (hne : r ≠ []) (hp : 0 < p) :
    calculate_annualized_return (fun x y => x ^ y) r p =
      (1 + ((r.map (fun x => 1 + x)).prod - 1)) ^
        ((p : ℝ) / (r.length : ℝ)) - 1 := by
  rw [calculate_annualized_return, one_div, inv_div]

/-- C6 witness: `r = [0.1]`, `p = 252`. -/
theorem calculate_annualized_return_spec_witness :
    ([(0.1 : ℝ)] ≠ []) ∧ 0 < 252 ∧
      calculate_annualized_return (fun x y => x ^ y) [(0.1 : ℝ)] 252 =
        (1 + ((([(0.1 : ℝ)]).map (fun x => 1 + x)).prod - 1)) ^
          ((252 : ℝ) / (([(0.1 : ℝ)]).length : ℝ)) - 1 :=
  ⟨by simp, by decide,
    calculate_annualized_return_spec [(0.1 : ℝ)] 252 (by simp) (by decide)⟩

/-- C7: for a constant return series the annualized volatility is zero,
and the Sharpe ratio is computed as an unguarded division by that zero
volatility. -/
theorem calculate_sharpe_ratio_zero_vol (r : List ℝ) (c rf : ℝ) (p : ℕ)
    (h2 : 2 ≤ r.length) (hc : ∀ x ∈ r, x = c) :
    calculate_volatility Real.sqrt r p = 0 ∧
      calculate_sharpe_ratio (fun x y => x ^ y) Real.sqrt r rf p =
        (calculate_annualized_return (fun x y => x ^ y) r p - rf) / 0 := by
  have hn : (r.length : ℝ) ≠ 0 := Nat.cast_ne_zero.mpr (by omega)
  have hmean : r.sum / (r.length : ℝ) = c := by
    have hsum : r.sum = r.length • c := List.sum_eq_card_nsmul r c hc
    rw [hsum, nsmul_eq_mul]
    field_simp
  have hdev : (r.map (fun x => (x - r.sum / (r.length : ℝ)) ^ 2)).sum = 0 := by
    apply List.sum_eq_zero
    intro y hy
    simp only [List.mem_map] at hy
    obtain ⟨x, hx, rfl⟩ := hy
    rw [hmean, hc x hx, sub_self]
    ring
  have hstd : series_std Real.sqrt r = 0 := by
    rw [series_std]
    simp only [hdev, zero_div, Real.sqrt_zero]
  have hvol : calculate_volatility Real.sqrt r p = 0 := by
    rw [calculate_volatility, hstd, zero_mul]
  refine ⟨hvol, ?_⟩
  rw [calculate_sharpe_ratio, hvol]

/-- C7 witness: `r = [0.05, 0.05]`, `rf = 0.02`, `p = 252`. -/
theorem calculate_sharpe_ratio_zero_vol_witness :
    calculate_volatility Real.sqrt [(0.05 : ℝ), 0.05] 252 = 0 ∧
      calculate_sharpe_ratio (fun x y => x ^ y) Real.sqrt
          [(0.05 : ℝ), 0.05] 0.02 252 =
        (calculate_annualized_return (fun x y => x ^ y)
          [(0.05 : ℝ), 0.05] 252 - 0.02) / 0 :=
  calculate_sharpe_ratio_zero_vol [(0.05 : ℝ), 0.05] 0.05 0.02 252
    (by decide) (by intro x hx; simp at hx; simpa using hx)

theorem cummaxAux_length (xs : List K) (m : K) :
    (cummaxAux m xs).length = xs.length := by
  induction xs generalizing m with
  | nil => rfl
  | cons x xs ih => simp [cummaxAux, ih]

theorem cummax_length (P : List K) : (cummax P).length = P.length := by
  cases P with
  | nil => rfl
  | cons p ps => simp [cummax, cummaxAux_length]

theorem cummaxAux_getD (xs : List K) (m : K) (t : ℕ) (h : t < xs.length) :
    (cummaxAux m xs).getD t 0 = (xs.take (t + 1)).foldl max m := by
  induction xs generalizing m t with
  | nil => simp at h
  | cons x xs ih =>
    cases t with
    | zero => simp [cummaxAux]
    | succ j =>
      have hj : j < xs.length := by simpa using h
      rw [cummaxAux, List.getD_cons_succ, ih (max m x) j hj,
        List.take_succ_cons, List.foldl_cons]

theorem cummax_getD (P : List K) (t : ℕ) (h : t < P.length) :
    (cummax P).getD t 0 = runningMax P t := by
  cases P with
  | nil => simp at h
  | cons p ps =>
    cases t with
    | zero => rfl
    | succ j =>
      have hj : j < ps.length := by simpa using h
      rw [cummax, List.getD_cons_succ, cummaxAux_getD ps p j hj]
      rfl

theorem drawdown_list_eq (P : List K) :
    (P.zip (cummax P)).map (fun pm => (pm.1 - pm.2) / pm.2) =
      (List.range P.length).map
        (fun t => (P.getD t 0 - runningMax P t) / runningMax P t) := by
  apply List.ext_getElem
  · simp [cummax_length]
  · intro i h1 h2
    have hi : i < P.length := by simpa [cummax_length] using h2
    have hc : i < (cummax P).length := by simpa [cummax_length] using hi
    simp only [List.getElem_map, List.getElem_zip, List.getElem_range]
    rw [← List.getD_eq_getElem P 0 hi, ← List.getD_eq_getElem (cummax P) 0 hc,
      cummax_getD P i hi]

theorem cummaxAux_of_chain (p : K) (ps : List K)
    (h : List.Chain (· ≤ ·) p ps) : cummaxAux p ps = ps := by
  induction ps generalizing p with
  | nil => rfl
  | cons x xs ih =>
    obtain ⟨hpx, hx⟩ := List.chain_cons.mp h
    rw [cummaxAux, max_eq_right hpx, ih x hx]

theorem foldl_min_zero (xs : List K) (a : K) (ha : a = 0)
    (h : ∀ y ∈ xs, y = 0) : xs.foldl min a = 0 := by
  induction xs generalizing a with
  | nil => simpa using ha
  | cons y ys ih =>
    rw [List.foldl_cons]
    exact ih _ (by rw [ha, h y (by simp), min_self])
      (fun z hz => h z (by simp [hz]))

theorem min?_getD_of_all_zero (xs : List K) (h : ∀ x ∈ xs, x = 0) :
    (xs.min?).getD 0 = 0 := by
  cases xs with
  | nil => rfl
  | cons x xs =>
    show xs.foldl min x = 0
    exact foldl_min_zero xs x (h x (by simp)) (fun y hy => h y (by simp [hy]))

theorem zip_same_fst_eq_snd (l : List K) : ∀ pm ∈ l.zip l, pm.1 = pm.2 := by
  induction l with
  | nil => simp
  | cons x xs ih =>
    intro pm hpm
    rcases (by simpa [List.zip_cons_cons] using hpm :
        pm = (x, x) ∨ pm ∈ xs.zip xs) with rfl | h
    · rfl
    · exact ih pm h

/-- C8: the max drawdown is the minimum over `t` of
`(P[t] - M[t]) / M[t]` with `M[t]` the running maximum of `P[0..t]`; it
is `0` for monotonically non-decreasing prices, and `-0.2` for
`P = [100, 80, 100]`. -/
theorem calculate_max_drawdown_spec (P : List ℝ) (hne : P ≠ [])
    (hpos : ∀ x ∈ P, 0 < x) :
    calculate_max_drawdown P = specMaxDrawdown P ∧
      (List.Chain' (· ≤ ·) P → calculate_max_drawdown P = 0) ∧
      calculate_max_drawdown [(100 : ℝ), 80, 100] = -0.2 := by
  refine ⟨?_, ?_, ?_⟩
  · rw [calculate_max_drawdown, specMaxDrawdown, series_min, drawdown_list_eq]
  · intro hmono
    have hcm : cummax P = P := by
      cases P with
      | nil => rfl
      | cons p ps => rw [cummax, cummaxAux_of_chain p ps hmono]
    rw [calculate_max_drawdown, hcm, series_min]
    apply min?_getD_of_all_zero
    intro v hv
    simp only [List.mem_map] at hv
    obtain ⟨pm, hpm, rfl⟩ := hv
    rw [zip_same_fst_eq_snd P pm hpm, sub_self, zero_div]
  · show ((([(100 : ℝ), 80, 100].zip (cummax [(100 : ℝ), 80, 100])).map
      (fun pm => (pm.1 - pm.2) / pm.2)).min?).getD 0 = -0.2
    norm_num [cummax, cummaxAux, List.zip_cons_cons, max_def, List.min?,
      min_def]

/-- C8 witness: `P = [100, 80, 100]`. -/
theorem calculate_max_drawdown_spec_witness :
    calculate_max_drawdown [(100 : ℝ), 80, 100] =
        specMaxDrawdown [(100 : ℝ), 80, 100] ∧
      (List.Chain' (· ≤ ·) [(100 : ℝ), 80, 100] →
        calculate_max_drawdown [(100 : ℝ), 80, 100] = 0) ∧
      calculate_max_drawdown [(100 : ℝ), 80, 100] = -0.2 :=
  calculate_max_drawdown_spec [(100 : ℝ), 80, 100] (by simp)
    (by intro x hx; simp at hx; rcases hx with rfl | rfl | rfl <;> norm_num)

/-- C9: a ticker consisting only of digits is forwarded to
`get_stock_data` with the ".KS" suffix; a ticker containing any non-digit
character is forwarded unchanged. -/
theorem get_korean_stock_data_spec (ticker : String)
    (start stop : Option String) (period : String) :
    (ticker.data ≠ [] → (∀ c ∈ ticker.data, c.isDigit = true) →
      get_korean_stock_data ticker start stop period =
        get_stock_data (ticker ++ ".KS") start stop period) ∧
    ((∃ c ∈ ticker.data, ¬ c.isDigit = true) →
      get_korean_stock_data ticker start stop period =
        get_stock_data ticker start stop period) := by
  constructor
  · intro hne hall
    have hd : pyIsDigit ticker = true := by
      simp only [pyIsDigit, Bool.and_eq_true, Bool.not_eq_true',
        List.isEmpty_eq_false, List.all_eq_true]
      exact ⟨hne, hall⟩
    rw [get_korean_stock_data]
    simp only [hd, if_true]
  · intro ⟨c, hc, hcd⟩
    have hd : pyIsDigit ticker = false := by
      simp only [pyIsDigit, Bool.and_eq_false_iff, List.all_eq_false]
      exact Or.inr ⟨c, hc, by simpa using hcd⟩
    rw [get_korean_stock_data]
    simp only [hd, if_false, Bool.false_eq_true]

/-- C9 witness: "005930" is suffixed, "005930.KQ" passes unchanged. -/
theorem get_korean_stock_data_spec_witness :
    get_korean_stock_data "005930" none none "1y" =
        get_stock_data ("005930" ++ ".KS") none none "1y" ∧
      get_korean_stock_data "005930.KQ" none none "1y" =
        get_stock_data "005930.KQ" none none "1y" :=
  ⟨(get_korean_stock_data_spec "005930" none none "1y").1
      (by decide) (by decide),
    (get_korean_stock_data_spec "005930.KQ" none none "1y").2
      ⟨'.', by decide, by decide⟩⟩

theorem cumprod_pct_getD (xs : List K) (a acc : K) (i : ℕ) (ha : a ≠ 0)
    (hxs : ∀ x ∈ xs, x ≠ 0) (hi : i < xs.length) :
    (cumprodAux acc
        (((pct_change_aux a xs).reduceOption).map (fun r => 1 + r))).getD
      i 0 = acc * (xs.getD i 0 / a) := by
  induction xs generalizing a acc i with
  | nil => simp at hi
  | cons x xs ih =>
    have hx : x ≠ 0 := hxs x (by simp)
    have h1a : 1 + (x - a) / a = x / a := by field_simp
    cases i with
    | zero =>
      simp only [pct_change_aux, List.reduceOption_cons_of_some,
        List.map_cons, cumprodAux, List.getD_cons_zero, h1a,
        List.getD_cons_zero]
    | succ j =>
      have hj : j < xs.length := by simpa using hi
      rw [pct_change_aux, List.reduceOption_cons_of_some, List.map_cons,
        cumprodAux, List.getD_cons_succ,
        ih x (acc * (1 + (x - a) / a)) j hx
          (fun y hy => hxs y (by simp [hy])) hj,
        h1a, List.getD_cons_succ]
      field_simp
      ring

/-- C10: applying `calculate_cumulative_returns` to the simple return
series of `P` (with the undefined first entry removed) yields at index
`i` the total return from the start, `P[i+1] / P[0] - 1`. -/
theorem cumulative_of_simple_returns (P : List ℝ) (i : ℕ)
    (rs : List (Option ℝ)) (hpos : ∀ x ∈ P, 0 < x) (hlen : 2 ≤ P.length)
    (hi : i < P.length - 1)
    (hrs : calculate_returns Real.log P "simple" = Except.ok rs) :
    (calculate_cumulative_returns rs.reduceOption).getD i 0 =
      P.getD (i + 1) 0 / P.getD 0 0 - 1 := by
  have hrs' : pct_change P = rs := by
    simpa [calculate_returns] using hrs
  subst hrs'
  obtain ⟨p, ps, rfl⟩ : ∃ p ps, P = p :: ps := by
    cases P with
    | nil => simp at hlen
    | cons p ps => exact ⟨p, ps, rfl⟩
  have hi' : i < ps.length := by simpa using hi
  rw [pct_change, List.reduceOption_cons_of_none,
    calculate_cumulative_returns, cumprod]
  have hlen2 : i <
      (cumprodAux 1
        (((pct_change_aux p ps).reduceOption).map (fun r => 1 + r))).length := by
    rw [cumprodAux_length, List.length_map, pct_change_aux_reduceOption]
    exact hi'
  rw [getD_map_of_lt _ _ i hlen2,
    cumprod_pct_getD ps p 1 i (ne_of_gt (hpos p (by simp)))
      (fun y hy => ne_of_gt (hpos y (by simp [hy]))) hi',
    one_mul, List.getD_cons_succ, List.getD_cons_zero]

/-- C10 witness: `P = [1, 2]`, `i = 0`. -/
theorem cumulative_of_simple_returns_witness :
    (calculate_cumulative_returns
        ((pct_change [(1:ℝ), 2]).reduceOption)).getD 0 0 =
      [(1:ℝ), 2].getD 1 0 / [(1:ℝ), 2].getD 0 0 - 1 :=
  cumulative_of_simple_returns [(1:ℝ), 2] 0 (pct_change [(1:ℝ), 2])
    (by intro x hx; simp at hx; rcases hx with rfl | rfl <;> norm_num)
    (by decide) (by decide) rfl

end FinEng
